import Mathlib

/-!
Verification of the serde_sexpr S-expression codec.

The development shallowly embeds the crate's core:
  - `Value` (src/value.rs), its `Display` printer,
  - the nom-based parser (src/parser.rs) and `FromStr for Value`,
  - the `Error` type (src/error.rs),
  - the serialize/deserialize adapters that the claims touch
    (src/ser.rs `serialize_bytes`, src/de.rs option/unit/seq/map/enum paths).

Strings are modelled as `List Char`; machine integers as `Int`/`Nat` with
explicit bounds.  The nom 4 combinators used by src/parser.rs are modelled
directly: `char!`, `anychar`, `take_while!`/`take_while1!` (complete input),
`many0!` (stops on inner failure; errors if the inner parser succeeds
without consuming), `separated_list!` (stops, returning the elements parsed
so far, when the separator matches without consuming input -- this is the
behaviour forced by the crate's own passing doctests such as
`(42 true)` and the in-repo proptest round-trip test, whose list bodies end
with an empty separator match before the closing parenthesis), `eof!`
(succeeds only on empty remaining input), and `alt_complete!` (ordered
choice).  Recursion through the grammar is fuel-indexed; the fuel passed at
the top level (`input length + 1`) can never be exhausted because every
recursive entry into `value` follows the consumption of one open
parenthesis.
-/

/-- Rust `char::is_whitespace`: the Unicode White_Space property. -/
def is_whitespace (c : Char) : Bool :=
  let n := c.toNat
  (0x09 ≤ n && n ≤ 0x0D) || n == 0x20 || n == 0x85 || n == 0xA0 || n == 0x1680 ||
  (0x2000 ≤ n && n ≤ 0x200A) || n == 0x2028 || n == 0x2029 || n == 0x202F ||
  n == 0x205F || n == 0x3000

/-- src/lib.rs `needs_quoting`: whitespace or one of the four delimiter chars. -/
def needs_quoting (c : Char) : Bool :=
  is_whitespace c || (c == '(' || c == ')' || c == '|' || c == '\\')

/-- src/value.rs: the s-expression tree. -/
inductive Value where
  | List (l : List Value)
  | Sym (s : List Char)

/-- src/error.rs `Error`.  The payloads of `Io` and `Utf8` are opaque here. -/
inductive Error where
  | Custom (msg : List Char)
  | Io
  | Invalid (ty : String) (v : Value)
  | ParseFailed
  | ParseTrailing
  | Utf8

/-- Escaped body of a quoted symbol: each quoting-significant character is
preceded by a backslash (src/value.rs, the `Sym` arm of `Display`). -/
def displaySymEsc (s : List Char) : List Char :=
  s.flatMap fun c => if needs_quoting c then ['\\', c] else [c]

mutual
/-- src/value.rs `impl Display for Value`. -/
def display : Value → List Char
  | .List l => '(' :: displayList l ++ [')']
  | .Sym s =>
    if s.any needs_quoting || s.isEmpty then '|' :: displaySymEsc s ++ ['|'] else s

/-- List children rendered with the `first` flag of the Rust loop: no
separator before the first child, a single space before each later one. -/
def displayList : List Value → List Char
  | [] => []
  | v :: vs => display v ++ displayRest vs

/-- The continuation of `displayList` after the first child. -/
def displayRest : List Value → List Char
  | [] => []
  | v :: vs => ' ' :: (display v ++ displayRest vs)
end

/-- nom `char!(c)`. -/
def charP (c : Char) (i : List Char) : Option (List Char × Unit) :=
  match i with
  | [] => none
  | x :: xs => if x = c then some (xs, ()) else none

/-- nom `anychar`. -/
def anychar (i : List Char) : Option (List Char × Char) :=
  match i with
  | [] => none
  | x :: xs => some (xs, x)

/-- nom `take_while1!(p)` on complete input. -/
def take_while1 (p : Char → Bool) (i : List Char) : Option (List Char × List Char) :=
  match i.takeWhile p with
  | [] => none
  | s => some (i.dropWhile p, s)

/-- src/parser.rs `ws`: `take_while!(char::is_whitespace)`; never fails. -/
def ws (i : List Char) : List Char :=
  i.dropWhile is_whitespace

/-- src/parser.rs `doesnt_need_quoting`. -/
def doesnt_need_quoting (c : Char) : Bool :=
  !needs_quoting c

/-- src/parser.rs `escaped_ch`: a backslash followed by any single char. -/
def escaped_ch (i : List Char) : Option (List Char × List Char) :=
  match charP '\\' i with
  | none => none
  | some (i1, _) =>
    match anychar i1 with
    | none => none
    | some (i2, c) => some (i2, [c])

/-- src/parser.rs `unescaped_chs`: a nonempty run of non-quoting chars. -/
def unescaped_chs (i : List Char) : Option (List Char × List Char) :=
  take_while1 doesnt_need_quoting i

/-- src/parser.rs `sym_chs`: `alt_complete!(escaped_ch | unescaped_chs)`. -/
def sym_chs (i : List Char) : Option (List Char × List Char) :=
  match escaped_ch i with
  | some r => some r
  | none => unescaped_chs i

/-- nom `many0!`: stops on inner failure; errors when the inner parser
succeeds without consuming.  Fuel counts loop iterations; each continuing
iteration consumes at least one character, so `length + 1` fuel suffices. -/
def many0 (p : List Char → Option (List Char × List Char)) :
    Nat → List Char → Option (List Char × List (List Char))
  | 0, _ => none
  | f + 1, i =>
    match p i with
    | none => some (i, [])
    | some (i1, a) =>
      if i1.length = i.length then none
      else
        match many0 p f i1 with
        | none => none
        | some (i2, rest) => some (i2, a :: rest)

/-- src/parser.rs `escaped_sym`: `|` , many0 sym_chs , `|`, collected. -/
def escaped_sym (i : List Char) : Option (List Char × Value) :=
  match charP '|' i with
  | none => none
  | some (i1, _) =>
    match many0 sym_chs (i1.length + 1) i1 with
    | none => none
    | some (i2, ss) =>
      match charP '|' i2 with
      | none => none
      | some (i3, _) => some (i3, Value.Sym ss.flatten)

/-- src/parser.rs `unescaped_sym`. -/
def unescaped_sym (i : List Char) : Option (List Char × Value) :=
  match take_while1 doesnt_need_quoting i with
  | none => none
  | some (i1, s) => some (i1, Value.Sym s)

/-- The loop of nom 4 `separated_list!(ws, value)` after the first element:
match the separator, then the next element.  It stops (keeping the input
from before the separator) when the separator matches without consuming,
when the element fails, or when the element consumes nothing.  Fuel counts
iterations; each continuing iteration consumes at least one character. -/
def sepLoop (item : List Char → Option (List Char × Value)) :
    Nat → List Char → List Value → Option (List Char × List Value)
  | 0, _, _ => none
  | f + 1, i, acc =>
    let i1 := ws i
    if i1.length = i.length then some (i, acc)
    else
      match item i1 with
      | none => some (i, acc)
      | some (i2, v) =>
        if i2.length = i1.length then some (i, acc)
        else sepLoop item f i2 (acc ++ [v])

/-- nom 4 `separated_list!(ws, value)`: zero elements when the first element
fails; an error when the first element succeeds without consuming. -/
def separated_list (item : List Char → Option (List Char × Value))
    (i : List Char) : Option (List Char × List Value) :=
  match item i with
  | none => some (i, [])
  | some (i1, v) =>
    if i1.length = i.length then none
    else sepLoop item (i1.length + 1) i1 [v]

/-- src/parser.rs `list`: `delimited!(char!('('), list_body, char!(')'))`,
mapped through `Value::List`.  `item` is the `value` parser. -/
def list (item : List Char → Option (List Char × Value)) (i : List Char) :
    Option (List Char × Value) :=
  match charP '(' i with
  | none => none
  | some (i1, _) =>
    match separated_list item i1 with
    | none => none
    | some (i2, items) =>
      match charP ')' i2 with
      | none => none
      | some (i3, _) => some (i3, Value.List items)

/-- src/parser.rs `value`: `alt_complete!(list | escaped_sym | unescaped_sym)`,
fuel-indexed for the recursion through `list`. -/
def value : Nat → List Char → Option (List Char × Value)
  | 0, _ => none
  | f + 1, i =>
    match list (value f) i with
    | some r => some r
    | none =>
      match escaped_sym i with
      | some r => some r
      | none => unescaped_sym i

/-- src/parser.rs `parser`: `ws >> v: value >> ws >> eof!() >> (v)`. -/
def parser (i : List Char) : Option (List Char × Value) :=
  let i1 := ws i
  match value (i.length + 1) i1 with
  | none => none
  | some (i2, v) =>
    let i3 := ws i2
    if i3 = [] then some (i3, v) else none

/-- src/parser.rs `impl FromStr for Value`. -/
def from_str (s : List Char) : Except Error Value :=
  match parser s with
  | some (rest, v) => if rest = [] then .ok v else .error .ParseTrailing
  | none => .error .ParseFailed

/-- Decoding one multi-byte UTF-8 scalar with leader byte `b` (already
known to be in `C2..F4`): checks the continuation bytes (`80..BF`, with the
narrowed first-continuation ranges that exclude overlong forms, surrogates
and anything above `10FFFF`, exactly as Rust's `from_utf8` does) and
returns the code point together with the remaining bytes. -/
def utf8_decode_multi (b : Nat) (bs : List Nat) : Option (Nat × List Nat) :=
  if b < 0xE0 then
    match bs with
    | b1 :: bs1 =>
      if 0x80 ≤ b1 ∧ b1 < 0xC0 then some ((b - 0xC0) * 0x40 + (b1 - 0x80), bs1)
      else none
    | [] => none
  else if b < 0xF0 then
    match bs with
    | b1 :: b2 :: bs2 =>
      if (if b = 0xE0 then 0xA0 ≤ b1 ∧ b1 < 0xC0
          else if b = 0xED then 0x80 ≤ b1 ∧ b1 < 0xA0
          else 0x80 ≤ b1 ∧ b1 < 0xC0) ∧ 0x80 ≤ b2 ∧ b2 < 0xC0 then
        some ((b - 0xE0) * 0x1000 + (b1 - 0x80) * 0x40 + (b2 - 0x80), bs2)
      else none
    | _ => none
  else if b < 0xF5 then
    match bs with
    | b1 :: b2 :: b3 :: bs3 =>
      if (if b = 0xF0 then 0x90 ≤ b1 ∧ b1 < 0xC0
          else if b = 0xF4 then 0x80 ≤ b1 ∧ b1 < 0x90
          else 0x80 ≤ b1 ∧ b1 < 0xC0) ∧
          0x80 ≤ b2 ∧ b2 < 0xC0 ∧ 0x80 ≤ b3 ∧ b3 < 0xC0 then
        some ((b - 0xF0) * 0x40000 + (b1 - 0x80) * 0x1000 +
          (b2 - 0x80) * 0x40 + (b3 - 0x80), bs3)
      else none
    | _ => none
  else none

/-- Rust `std::str::from_utf8` (strict UTF-8 validation), fuel-indexed:
fuel counts decoded scalars; the wrapper below passes the byte count, which
cannot be exhausted since every scalar consumes at least one byte. -/
def utf8_decode_go : Nat → List Nat → Option (List Char)
  | _, [] => some []
  | 0, _ :: _ => none
  | f + 1, b :: bs =>
    if b < 0x80 then (utf8_decode_go f bs).map fun s => Char.ofNat b :: s
    else if b < 0xC2 then none
    else
      match utf8_decode_multi b bs with
      | none => none
      | some (cp, bs1) => (utf8_decode_go f bs1).map fun s => Char.ofNat cp :: s

/-- Rust `std::str::from_utf8`, returning the decoded characters. -/
def utf8_decode (bs : List Nat) : Option (List Char) :=
  utf8_decode_go bs.length bs

/-- src/ser.rs `Serializer::serialize_bytes`: `from_utf8(v)?` followed by
`serialize_generic`, which wraps the decoded text in `Value::Sym`. -/
def serialize_bytes (bs : List Nat) : Except Error Value :=
  match utf8_decode bs with
  | some s => .ok (.Sym s)
  | none => .error .Utf8

/-- src/de.rs `deserialize_option`, abstracted over the target visitor. -/
def deserialize_option {α : Type} (v : Value) (visit_none : Except Error α)
    (visit_some : Value → Except Error α) : Except Error α :=
  match v with
  | .List l => if l.isEmpty then visit_none else visit_some (.List l)
  | .Sym s => visit_some (.Sym s)

/-- src/de.rs `deserialize_unit`, abstracted over the target visitor. -/
def deserialize_unit {α : Type} (v : Value) (visit_unit : Except Error α) :
    Except Error α :=
  match v with
  | .List l => if l.isEmpty then visit_unit else .error (.Invalid "unit" (.List l))
  | .Sym s => .error (.Invalid "unit" (.Sym s))

/-- src/de.rs `SeqAccess::next_element_seed`: `None` once the (reversed)
vector is empty, otherwise `Vec::pop` takes its last element. -/
def seq_next_element {α : Type} (seed : Value → Except Error α)
    (st : List Value) : Except Error (Option (α × List Value)) :=
  match st.getLast? with
  | none => .ok none
  | some v =>
    match seed v with
    | .ok a => .ok (some (a, st.dropLast))
    | .error e => .error e

/-- The external framework's sequence visitor: drain the `SeqAccess`,
collecting elements in call order.  Fuel counts elements; the call below
passes `length + 1`, which cannot be exhausted. -/
def drainSeq {α : Type} (seed : Value → Except Error α) :
    Nat → List Value → Except Error (List α)
  | 0, st =>
    match seq_next_element seed st with
    | .error e => .error e
    | .ok none => .ok []
    | .ok (some _) => .error .Io
  | f + 1, st =>
    match seq_next_element seed st with
    | .error e => .error e
    | .ok none => .ok []
    | .ok (some (a, st1)) =>
      match drainSeq seed f st1 with
      | .error e => .error e
      | .ok as => .ok (a :: as)

/-- src/de.rs `deserialize_seq`: reverse the children and hand them to the
sequence visitor as a `SeqAccess`. -/
def deserialize_seq {α : Type} (seed : Value → Except Error α) (v : Value) :
    Except Error (List α) :=
  match v with
  | .List vs => drainSeq seed (vs.length + 1) vs.reverse
  | .Sym s => .error (.Invalid "sequence" (.Sym s))

/-- src/de.rs `MapAccess::next_key_seed`: `None` once the (reversed) vector
is empty; otherwise `Vec::pop` takes its last element, which must be a
two-element list `[key, value]`; the value is stored for
`next_value_seed` and the key is handed to the seed. -/
def map_next_key {α : Type} (seed : Value → Except Error α)
    (st : List Value) : Except Error (Option (α × Value × List Value)) :=
  match st.getLast? with
  | none => .ok none
  | some (Value.List [k, v]) =>
    match seed k with
    | .ok a => .ok (some (a, v, st.dropLast))
    | .error e => .error e
  | some (Value.List vs) => .error (.Invalid "pair" (.List vs))
  | some (Value.Sym s) => .error (.Invalid "pair" (.Sym s))

/-- The external framework's map visitor with identity seeds: alternate
`next_key_seed` and `next_value_seed` until the access is drained.  Fuel
counts entries; the call below passes `length + 1`, which cannot be
exhausted. -/
def drainMap : Nat → List Value → Except Error (List (Value × Value))
  | 0, st =>
    match map_next_key Except.ok st with
    | .error e => .error e
    | .ok none => .ok []
    | .ok (some _) => .error .Io
  | f + 1, st =>
    match map_next_key Except.ok st with
    | .error e => .error e
    | .ok none => .ok []
    | .ok (some (k, v, st1)) =>
      match drainMap f st1 with
      | .error e => .error e
      | .ok ps => .ok ((k, v) :: ps)

/-- src/de.rs `deserialize_map`: reverse the children and hand them to the
map visitor as a `MapAccess`. -/
def deserialize_map (v : Value) : Except Error (List (Value × Value)) :=
  match v with
  | .List vs => drainMap (vs.length + 1) vs.reverse
  | .Sym s => .error (.Invalid "map" (.Sym s))

/-- src/de.rs `EnumAccess::variant_seed`: an empty list is an `Invalid
"enum"` error; a nonempty list yields its head as the variant identifier
and `Some` of the remaining elements as the `VariantAccess` payload state;
anything else (a symbol) is itself the identifier, with payload state
`None`. -/
def variant_seed {α : Type} (seed : Value → Except Error α) (v : Value) :
    Except Error (α × Option (List Value)) :=
  match v with
  | .List [] => .error (.Invalid "enum" (.List []))
  | .List (x :: vs) =>
    match seed x with
    | .ok a => .ok (a, some vs)
    | .error e => .error e
  | .Sym s =>
    match seed (.Sym s) with
    | .ok a => .ok (a, none)
    | .error e => .error e

/-- Outcome of a deserialization step that can also abort the process:
Rust `Option::unwrap` on `None` panics instead of returning an error. -/
inductive DeResult (α : Type) where
  | ok (a : α)
  | err (e : Error)
  | panicked

/-- src/de.rs `VariantAccess::newtype_variant_seed`.  The two
`debug_assert!`s are no-ops in release builds; `self.0.unwrap()` panics
when the payload state is `None`, `.pop().unwrap()` panics when the payload
vector is empty, and `Vec::pop` otherwise takes the **last** element. -/
def newtype_variant_seed {α : Type} (seed : Value → Except Error α)
    (acc : Option (List Value)) : DeResult α :=
  match acc with
  | none => .panicked
  | some vs =>
    match vs.getLast? with
    | none => .panicked
    | some val =>
      match seed val with
      | .ok a => .ok a
      | .error e => .err e

/-- serde derive resolves a variant identifier through
`deserialize_identifier`, which src/de.rs forwards to `deserialize_str`:
a symbol yields its text (String parsing never fails), a list is an
`Invalid "string"` error. -/
def deserialize_identifier (v : Value) : Except Error (List Char) :=
  match v with
  | .List l => .error (.Invalid "string" (.List l))
  | .Sym s => .ok s

/-- The composition the external framework performs for a tagged-union
single-payload (newtype) case named `variantName`: resolve the case name
through `EnumAccess::variant_seed`, then request the payload through
`VariantAccess::newtype_variant_seed`. -/
def deserialize_enum_newtype {α : Type} (variantName : List Char)
    (seed : Value → Except Error α) (v : Value) : DeResult α :=
  match variant_seed deserialize_identifier v with
  | .error e => .err e
  | .ok (name, acc) =>
    if name = variantName then newtype_variant_seed seed acc
    else .err (.Custom "unknown variant".data)

/-- Rust `i32::from_str`: optional sign, then one or more ASCII digits,
with the result range-checked against the 32-bit bounds. -/
def parse_unsigned (cs : List Char) : Option Nat :=
  if cs ≠ [] ∧ cs.all Char.isDigit then
    some (cs.foldl (fun n c => n * 10 + (c.toNat - 48)) 0)
  else none

/-- Rust `i32::from_str`, continued: sign handling and range check. -/
def i32_from_str (cs : List Char) : Option Int :=
  match cs with
  | '+' :: ds =>
    (parse_unsigned ds).bind fun n => if n ≤ 2 ^ 31 - 1 then some (n : Int) else none
  | '-' :: ds =>
    (parse_unsigned ds).bind fun n => if n ≤ 2 ^ 31 then some (-(n : Int)) else none
  | ds =>
    (parse_unsigned ds).bind fun n => if n ≤ 2 ^ 31 - 1 then some (n : Int) else none

/-- src/de.rs `deserialize_generic` at target `i32`, composed with
`visit_i32`. -/
def deserialize_i32 (v : Value) : Except Error Int :=
  match v with
  | .List l => .error (.Invalid "i32" (.List l))
  | .Sym s =>
    match i32_from_str s with
    | some n => .ok n
    | none => .error (.Invalid "i32" (.Sym s))

/-- Modelled from the spec: "A character is quoting-significant iff it is
whitespace, or one of: open-paren, close-paren, vertical-bar, backslash." -/
def quoting_significant_spec (c : Char) : Bool :=
  is_whitespace c || c == '(' || c == ')' || c == '|' || c == '\\'

/-- Modelled from the spec, section 4.1: the symbol-printing rule stated in
the spec's words, to be compared with the `Sym` arm of `display`. -/
def print_sym_spec (s : List Char) : List Char :=
  if s ≠ [] ∧ s.all fun c => !quoting_significant_spec c then s
  else '|' :: (s.flatMap fun c => if quoting_significant_spec c then ['\\', c] else [c]) ++ ['|']

/-- Does a remainder stop a run of non-quoting characters?  True of the
empty remainder and of any remainder whose head is quoting-significant. -/
def stopsRun : List Char → Bool
  | [] => true
  | c :: _ => needs_quoting c

mutual
/-- Height of a value tree, used as a fuel bound for the parser. -/
def heightV : Value → Nat
  | .Sym _ => 1
  | .List l => heightL l + 1

/-- Height of a forest of value trees. -/
def heightL : List Value → Nat
  | [] => 0
  | v :: vs => max (heightV v) (heightL vs)
end

/-- Texts of a list in which two consecutive element values abut with zero
intervening whitespace, at any element position and at any nesting depth.
`visible` places, after any earlier elements `pre` and a first value `v` of
any kind, a second value starting with a quoting-significant non-whitespace
character other than the closing parenthesis (an open parenthesis, a
vertical bar or a backslash), followed by anything at all; `delimited`
places, after a first value whose printed form ends in its own closing
delimiter (a list, or a bar-quoted symbol), a second value starting with
any non-quoting character (the start of a bare symbol); `nestFirst` and
`nestLater` embed such a text as the first, or any later, element of an
enclosing list. -/
inductive AbuttingListText : List Char → Prop where
  | visible (pre : List Value) (v : Value) (c : Char) (t : List Char) :
      needs_quoting c = true → is_whitespace c = false → c ≠ ')' →
      AbuttingListText ('(' :: (displayList (pre ++ [v]) ++ c :: t))
  | delimited (pre : List Value) (v : Value) (c : Char) (t : List Char) :
      ((∃ l, v = Value.List l) ∨
        ∃ s, v = Value.Sym s ∧ (s.any needs_quoting || s.isEmpty) = true) →
      needs_quoting c = false →
      AbuttingListText ('(' :: (displayList (pre ++ [v]) ++ c :: t))
  | nestFirst (b : List Char) : AbuttingListText b → AbuttingListText ('(' :: b)
  | nestLater (pre : List Value) (b : List Char) : pre ≠ [] →
      AbuttingListText b → AbuttingListText ('(' :: (displayList pre ++ ' ' :: b))

theorem heightV_pos : ∀ v : Value, 1 ≤ heightV v
  | .Sym _ => le_refl _
  | .List _ => Nat.succ_le_succ (Nat.zero_le _)

theorem heightV_le_of_mem {v : Value} : ∀ {vs : List Value}, v ∈ vs → heightV v ≤ heightL vs
  | _ :: _, h => by
    rcases List.mem_cons.mp h with h | h
    · subst h; exact le_max_left _ _
    · exact le_trans (heightV_le_of_mem h) (le_max_right _ _)

theorem needs_quoting_of_ws {c : Char} (h : is_whitespace c = true) :
    needs_quoting c = true := by
  simp [needs_quoting, h]

theorem not_ws_of_not_quoting {c : Char} (h : needs_quoting c = false) :
    is_whitespace c = false := by
  cases hw : is_whitespace c with
  | false => rfl
  | true => rw [needs_quoting_of_ws hw] at h; cases h

theorem ne_of_not_quoting {c d : Char} (h : needs_quoting c = false)
    (hd : needs_quoting d = true) : c ≠ d := by
  intro he; rw [he, hd] at h; cases h

theorem display_sym_quoted {s : List Char}
    (h : (s.any needs_quoting || s.isEmpty) = true) :
    display (.Sym s) = '|' :: displaySymEsc s ++ ['|'] := by
  simp [display, h]

theorem display_sym_raw {s : List Char}
    (h : (s.any needs_quoting || s.isEmpty) = false) :
    display (.Sym s) = s := by
  simp [display, h]

theorem display_head : ∀ v : Value, ∃ c cs,
    display v = c :: cs ∧ is_whitespace c = false := by
  intro v
  match v with
  | .List l =>
    exact ⟨'(', displayList l ++ [')'], by simp [display], by decide⟩
  | .Sym s =>
    cases hq : (s.any needs_quoting || s.isEmpty) with
    | true => exact ⟨'|', displaySymEsc s ++ ['|'], display_sym_quoted hq, by decide⟩
    | false =>
      match s with
      | [] => simp at hq
      | c :: s1 =>
        refine ⟨c, s1, display_sym_raw hq, ?_⟩
        simp only [Bool.or_eq_false_iff, List.any_cons, Bool.or_eq_false_iff] at hq
        exact not_ws_of_not_quoting hq.1.1

theorem display_ne_nil (v : Value) : display v ≠ [] := by
  obtain ⟨c, cs, h, -⟩ := display_head v
  simp [h]

theorem ws_display_append (v : Value) (r : List Char) :
    ws (display v ++ r) = display v ++ r := by
  obtain ⟨c, cs, h, hw⟩ := display_head v
  rw [h]
  simp [ws, List.dropWhile_cons, hw]

/-- The `value` parser fails immediately on a quoting-significant character
other than the two opening delimiters. -/
theorem value_none_of_head {c : Char} (hq : needs_quoting c = true)
    (h1 : c ≠ '(') (h2 : c ≠ '|') : ∀ f rest, value f (c :: rest) = none := by
  intro f rest
  match f with
  | 0 => rfl
  | f + 1 =>
    have hop : charP '(' (c :: rest) = none := by simp [charP, h1]
    have hbar : charP '|' (c :: rest) = none := by simp [charP, h2]
    have hu : unescaped_sym (c :: rest) = none := by
      simp [unescaped_sym, take_while1, List.takeWhile_cons, doesnt_need_quoting, hq]
    simp [value, list, escaped_sym, hop, hbar, hu]

/-- Splitting `takeWhile`/`dropWhile` over an append at a stopping point. -/
theorem span_append {p : Char → Bool} : ∀ (s r : List Char),
    (∀ c ∈ s, p c = true) → (∀ c, r.head? = some c → p c = false) →
    (s ++ r).takeWhile p = s ∧ (s ++ r).dropWhile p = r := by
  intro s
  induction s with
  | nil =>
    intro r _ hr
    match r with
    | [] => simp
    | c :: cs =>
      have := hr c rfl
      simp [List.takeWhile_cons, List.dropWhile_cons, this]
  | cons a s ih =>
    intro r hs hr
    have ha : p a = true := hs a (List.mem_cons_self a s)
    have := ih r (fun c hc => hs c (List.mem_cons_of_mem a hc)) hr
    simp [List.takeWhile_cons, List.dropWhile_cons, ha, this.1, this.2]

theorem take_while1_run {s r : List Char} (hne : s ≠ [])
    (hs : ∀ c ∈ s, needs_quoting c = false) (hr : stopsRun r = true) :
    take_while1 doesnt_need_quoting (s ++ r) = some (r, s) := by
  have hr1 : ∀ c, r.head? = some c → doesnt_need_quoting c = false := by
    intro c hc
    cases r with
    | nil => simp at hc
    | cons d ds =>
      simp only [List.head?_cons, Option.some.injEq] at hc
      subst hc
      simp only [stopsRun] at hr
      simp [doesnt_need_quoting, hr]
  have hsp := span_append s r (fun c hc => by simp [doesnt_need_quoting, hs c hc]) hr1
  rw [take_while1, hsp.1, hsp.2]
  match s, hne with
  | a :: s1, _ => rfl

theorem displaySymEsc_cons_q {c : Char} (s : List Char) (h : needs_quoting c = true) :
    displaySymEsc (c :: s) = '\\' :: c :: displaySymEsc s := by
  simp [displaySymEsc, h]

theorem displaySymEsc_cons_n {c : Char} (s : List Char) (h : needs_quoting c = false) :
    displaySymEsc (c :: s) = c :: displaySymEsc s := by
  simp [displaySymEsc, h]

theorem displaySymEsc_run_append {run t : List Char}
    (h : ∀ c ∈ run, needs_quoting c = false) :
    displaySymEsc (run ++ t) = run ++ displaySymEsc t := by
  induction run with
  | nil => simp
  | cons a r ih =>
    have ha : needs_quoting a = false := h a (List.mem_cons_self a r)
    rw [List.cons_append, displaySymEsc_cons_n _ ha,
      ih (fun c hc => h c (List.mem_cons_of_mem a hc))]
    simp

theorem head_dropWhile {α : Type} {p : α → Bool} :
    ∀ (l : List α) (c : α), (l.dropWhile p).head? = some c → p c = false := by
  intro l
  induction l with
  | nil => intro c hc; simp at hc
  | cons a t ih =>
    intro c hc
    rw [List.dropWhile_cons] at hc
    by_cases ha : p a = true
    · rw [if_pos ha] at hc; exact ih c hc
    · rw [if_neg ha] at hc
      simp only [List.head?_cons, Option.some.injEq] at hc
      subst hc
      simpa using ha

theorem sym_chs_bar (r : List Char) : sym_chs ('|' :: r) = none := by
  simp [sym_chs, escaped_ch, charP, unescaped_chs, take_while1, List.takeWhile_cons,
    doesnt_need_quoting, show ('|' : Char) ≠ '\\' by decide,
    show needs_quoting '|' = true by decide]

theorem many0_esc_nil (rest : List Char) (fuel : Nat) (h : 1 ≤ fuel) :
    many0 sym_chs fuel ('|' :: rest) = some ('|' :: rest, []) := by
  obtain ⟨f, rfl⟩ : ∃ f, fuel = f + 1 := ⟨fuel - 1, by omega⟩
  simp [many0, sym_chs_bar]

/-- Running `many0 sym_chs` over the printed escaped body of a symbol
consumes exactly that body, producing chunks that flatten back to the
symbol.  Strong induction on the symbol length, since an unescaped run can
span several characters. -/
theorem many0_escContent : ∀ (n : Nat) (s : List Char), s.length ≤ n →
    ∀ (rest : List Char) (fuel : Nat), (displaySymEsc s).length + 1 ≤ fuel →
    ∃ ps, many0 sym_chs fuel (displaySymEsc s ++ '|' :: rest) = some ('|' :: rest, ps)
      ∧ ps.flatten = s := by
  intro n
  induction n with
  | zero =>
    intro s hs rest fuel hf
    have hnil : s = [] := List.length_eq_zero.mp (Nat.le_zero.mp hs)
    subst hnil
    exact ⟨[], by simpa [displaySymEsc] using many0_esc_nil rest fuel (by omega), rfl⟩
  | succ n ih =>
    intro s hs rest fuel hf
    match s with
    | [] =>
      exact ⟨[], by simpa [displaySymEsc] using many0_esc_nil rest fuel (by omega), rfl⟩
    | c :: s1 =>
      have hs1 : s1.length ≤ n := by simpa using Nat.le_of_succ_le_succ hs
      cases hq : needs_quoting c with
      | true =>
        have hesc : displaySymEsc (c :: s1) = '\\' :: c :: displaySymEsc s1 :=
          displaySymEsc_cons_q s1 hq
        have hlen : (displaySymEsc (c :: s1)).length = (displaySymEsc s1).length + 2 := by
          rw [hesc]; simp
        rw [hlen] at hf
        obtain ⟨f, rfl⟩ : ∃ f, fuel = f + 1 := ⟨fuel - 1, by omega⟩
        obtain ⟨ps1, hps, hflat⟩ := ih s1 hs1 rest f (by omega)
        refine ⟨[c] :: ps1, ?_, by simp [hflat]⟩
        rw [hesc]
        have hsym : sym_chs ('\\' :: c :: (displaySymEsc s1 ++ '|' :: rest))
            = some (displaySymEsc s1 ++ '|' :: rest, [c]) := by
          simp [sym_chs, escaped_ch, charP, anychar]
        simp [many0, hsym, hps]
        omega
      | false =>
        have hsplit : s1.takeWhile (fun x => !needs_quoting x) ++
            s1.dropWhile (fun x => !needs_quoting x) = s1 :=
          List.takeWhile_append_dropWhile _ s1
        have hrun : ∀ x ∈ s1.takeWhile (fun x => !needs_quoting x),
            needs_quoting x = false := by
          intro x hx
          have := List.mem_takeWhile_imp hx
          simpa using this
        have hs2q : ∀ d, (s1.dropWhile (fun x => !needs_quoting x)).head? = some d →
            needs_quoting d = true := by
          intro d hd
          have := head_dropWhile s1 d hd
          simpa using this
        have hesc : displaySymEsc (c :: s1) =
            (c :: s1.takeWhile (fun x => !needs_quoting x)) ++
              displaySymEsc (s1.dropWhile (fun x => !needs_quoting x)) := by
          rw [displaySymEsc_cons_n s1 hq]
          conv_lhs => rw [← hsplit]
          rw [displaySymEsc_run_append hrun]
          simp
        have hlens : (s1.takeWhile (fun x => !needs_quoting x)).length +
            (s1.dropWhile (fun x => !needs_quoting x)).length = s1.length := by
          rw [← List.length_append, hsplit]
        have hstops : stopsRun (displaySymEsc (s1.dropWhile (fun x => !needs_quoting x)) ++
            '|' :: rest) = true := by
          cases hd : s1.dropWhile (fun x => !needs_quoting x) with
          | nil => simp [hd, displaySymEsc, stopsRun]; decide
          | cons d ds =>
            have hdq : needs_quoting d = true := hs2q d (by rw [hd]; rfl)
            rw [displaySymEsc_cons_q ds hdq]
            simp [stopsRun]
            decide
        have hsym : sym_chs ((c :: s1.takeWhile (fun x => !needs_quoting x)) ++
            (displaySymEsc (s1.dropWhile (fun x => !needs_quoting x)) ++ '|' :: rest))
            = some (displaySymEsc (s1.dropWhile (fun x => !needs_quoting x)) ++ '|' :: rest,
                c :: s1.takeWhile (fun x => !needs_quoting x)) := by
          have hne : charP '\\' ((c :: s1.takeWhile (fun x => !needs_quoting x)) ++
              (displaySymEsc (s1.dropWhile (fun x => !needs_quoting x)) ++ '|' :: rest))
              = none := by
            have : c ≠ '\\' := ne_of_not_quoting hq (by decide)
            simp [charP, this]
          have hall : ∀ x ∈ c :: s1.takeWhile (fun x => !needs_quoting x),
              needs_quoting x = false := by
            intro x hx
            rcases List.mem_cons.mp hx with h | h
            · subst h; exact hq
            · exact hrun x h
          rw [sym_chs, escaped_ch]
          rw [hne]
          rw [unescaped_chs, take_while1_run (by simp) hall hstops]
        obtain ⟨f, rfl⟩ : ∃ f, fuel = f + 1 := ⟨fuel - 1, by omega⟩
        have hlenesc : (displaySymEsc (c :: s1)).length =
            (s1.takeWhile (fun x => !needs_quoting x)).length + 1 +
            (displaySymEsc (s1.dropWhile (fun x => !needs_quoting x))).length := by
          rw [hesc]; simp; omega
        have hs2len : (s1.dropWhile (fun x => !needs_quoting x)).length ≤ n := by omega
        obtain ⟨ps2, hps, hflat⟩ := ih (s1.dropWhile (fun x => !needs_quoting x)) hs2len
          rest f (by omega)
        refine ⟨(c :: s1.takeWhile (fun x => !needs_quoting x)) :: ps2, ?_, ?_⟩
        · rw [hesc, List.append_assoc]
          simp only [many0, hsym]
          have hlne : ¬((displaySymEsc (s1.dropWhile (fun x => !needs_quoting x)) ++
              '|' :: rest).length =
              ((c :: s1.takeWhile (fun x => !needs_quoting x)) ++
              (displaySymEsc (s1.dropWhile (fun x => !needs_quoting x)) ++
                '|' :: rest)).length) := by
            simp; omega
          rw [if_neg hlne, hps]
        · simp only [List.flatten_cons, hflat]
          rw [List.cons_append, hsplit]

/-- Parsing the printed form of a quoted symbol. -/
theorem escaped_sym_display (s rest : List Char) :
    escaped_sym ('|' :: displaySymEsc s ++ '|' :: rest) = some (rest, Value.Sym s) := by
  obtain ⟨ps, hps, hflat⟩ := many0_escContent s.length s le_rfl rest
    ((displaySymEsc s ++ '|' :: rest).length + 1) (by simp)
  have h1 : charP '|' ('|' :: displaySymEsc s ++ '|' :: rest)
      = some (displaySymEsc s ++ '|' :: rest, ()) := by simp [charP]
  simp only [escaped_sym, h1]
  rw [hps]
  simp [charP, hflat]

theorem charP_cons_ne {c d : Char} (h : d ≠ c) (r : List Char) :
    charP c (d :: r) = none := by simp [charP, h]

theorem charP_cons_eq (c : Char) (r : List Char) : charP c (c :: r) = some (r, ()) := by
  simp [charP]

theorem sepLoop_succ (item : List Char → Option (List Char × Value)) (f : Nat)
    (i : List Char) (acc : List Value) :
    sepLoop item (f + 1) i acc =
      if (ws i).length = i.length then some (i, acc)
      else
        match item (ws i) with
        | none => some (i, acc)
        | some (i2, v) =>
          if i2.length = (ws i).length then some (i, acc)
          else sepLoop item f i2 (acc ++ [v]) := rfl

theorem value_succ (f : Nat) (i : List Char) :
    value (f + 1) i = match list (value f) i with
      | some r => some r
      | none =>
        match escaped_sym i with
        | some r => some r
        | none => unescaped_sym i := rfl

theorem stopsRun_displayRest (vs : List Value) (c : Char) (hq : needs_quoting c = true)
    (rest : List Char) : stopsRun (displayRest vs ++ c :: rest) = true := by
  cases vs with
  | nil => simpa [displayRest, stopsRun] using hq
  | cons v vs1 => simp [displayRest, stopsRun]; decide

theorem stopsRun_displayRest_ne_nil (vs : List Value) (h : vs ≠ []) (T : List Char) :
    stopsRun (displayRest vs ++ T) = true := by
  match vs, h with
  | v :: vs1, _ => simp [displayRest, stopsRun]; decide

theorem length_le_displayRest : ∀ vs : List Value, vs.length ≤ (displayRest vs).length
  | [] => le_refl _
  | v :: vs => by
    have := length_le_displayRest vs
    simp only [displayRest, List.length_cons, List.length_append]
    omega

/-- The `separated_list` loop over the printed continuation of a list body:
each step consumes exactly one separating space and one printed child, and
the loop stops at the closing parenthesis, where the separator consumes
nothing. -/
theorem sepLoop_display (f : Nat)
    (IH : ∀ v : Value, heightV v ≤ f → ∀ rest, stopsRun rest = true →
      value f (display v ++ rest) = some (rest, v)) :
    ∀ vs : List Value, heightL vs ≤ f → ∀ lf, vs.length < lf →
      ∀ (rest : List Char) (acc : List Value),
        sepLoop (value f) lf (displayRest vs ++ ')' :: rest) acc
          = some (')' :: rest, acc ++ vs) := by
  intro vs
  induction vs with
  | nil =>
    intro _ lf hlf rest acc
    obtain ⟨l1, rfl⟩ : ∃ l1, lf = l1 + 1 := ⟨lf - 1, by omega⟩
    simp [sepLoop, displayRest, ws, List.dropWhile_cons,
      show is_whitespace ')' = false by decide]
  | cons v vs1 ih =>
    intro hh lf hlf rest acc
    obtain ⟨l1, rfl⟩ : ∃ l1, lf = l1 + 1 := ⟨lf - 1, by omega⟩
    have hv1 : heightV v ≤ f :=
      le_trans (heightV_le_of_mem (List.mem_cons_self v vs1)) hh
    have hvs1 : heightL vs1 ≤ f := le_trans (le_max_right _ _) hh
    have hin : displayRest (v :: vs1) ++ ')' :: rest
        = ' ' :: (display v ++ (displayRest vs1 ++ ')' :: rest)) := by
      simp [displayRest]
    have hws : ws (' ' :: (display v ++ (displayRest vs1 ++ ')' :: rest)))
        = display v ++ (displayRest vs1 ++ ')' :: rest) := by
      rw [ws, List.dropWhile_cons, if_pos (by decide)]
      exact ws_display_append v _
    have hitem : value f (display v ++ (displayRest vs1 ++ ')' :: rest))
        = some (displayRest vs1 ++ ')' :: rest, v) :=
      IH v hv1 _ (stopsRun_displayRest vs1 ')' (by decide) rest)
    have hdpos : 1 ≤ (display v).length := List.length_pos.mpr (display_ne_nil v)
    rw [hin, sepLoop_succ, hws]
    rw [if_neg (by simp only [List.length_cons]; omega)]
    simp only [hitem]
    rw [if_neg (by simp only [List.length_append]; omega)]
    rw [ih hvs1 l1 (by simpa using Nat.lt_of_succ_lt_succ hlf) rest (acc ++ [v])]
    simp

/-- Parsing the printed form of any value, followed by a stopping
remainder, succeeds and consumes exactly the printed form. -/
theorem value_display : ∀ (f : Nat) (v : Value), heightV v ≤ f →
    ∀ rest, stopsRun rest = true → value f (display v ++ rest) = some (rest, v) := by
  intro f
  induction f with
  | zero => intro v hv _ _; exact absurd (le_trans (heightV_pos v) hv) (by omega)
  | succ f ih =>
    intro v hv rest hrest
    match v with
    | .Sym s =>
      cases hq : (s.any needs_quoting || s.isEmpty) with
      | true =>
        rw [display_sym_quoted hq]
        have heq : ('|' :: displaySymEsc s ++ ['|']) ++ rest
            = '|' :: displaySymEsc s ++ '|' :: rest := by simp
        rw [heq, value_succ]
        have hlist : list (value f) ('|' :: displaySymEsc s ++ '|' :: rest) = none := by
          simp only [list, List.cons_append,
            charP_cons_ne (show ('|' : Char) ≠ '(' by decide)]
        rw [hlist, escaped_sym_display]
      | false =>
        rw [display_sym_raw hq]
        simp only [Bool.or_eq_false_iff] at hq
        obtain ⟨hany, hemp⟩ := hq
        have hall : ∀ c ∈ s, needs_quoting c = false := by
          intro c hc
          cases hnc : needs_quoting c with
          | false => rfl
          | true =>
            rw [List.any_eq_true.mpr ⟨c, hc, hnc⟩] at hany
            cases hany
        cases s with
        | nil => simp [List.isEmpty] at hemp
        | cons c s1 =>
          have hc0 : needs_quoting c = false := hall c (List.mem_cons_self c s1)
          rw [value_succ]
          have hlist : list (value f) ((c :: s1) ++ rest) = none := by
            simp only [list, List.cons_append,
              charP_cons_ne (@ne_of_not_quoting c '(' hc0 (by decide))]
          have hesc : escaped_sym ((c :: s1) ++ rest) = none := by
            simp only [escaped_sym, List.cons_append,
              charP_cons_ne (@ne_of_not_quoting c '|' hc0 (by decide))]
          have huns : unescaped_sym ((c :: s1) ++ rest) = some (rest, .Sym (c :: s1)) := by
            rw [unescaped_sym, take_while1_run (by simp) hall hrest]
          rw [hlist, hesc, huns]
    | .List l =>
      have hl : heightL l ≤ f := by
        have : heightL l + 1 ≤ f + 1 := by simpa [heightV] using hv
        omega
      have heq : display (.List l) ++ rest = '(' :: (displayList l ++ ')' :: rest) := by
        simp [display]
      rw [heq, value_succ]
      have hsep : separated_list (value f) (displayList l ++ ')' :: rest)
          = some (')' :: rest, l) := by
        cases l with
        | nil =>
          have hzv : value f (')' :: rest) = none :=
            value_none_of_head (by decide) (by decide) (by decide) f rest
          simp [separated_list, displayList, hzv]
        | cons v vs =>
          have hv1 : heightV v ≤ f :=
            le_trans (heightV_le_of_mem (List.mem_cons_self v vs)) hl
          have hvs : heightL vs ≤ f := le_trans (le_max_right _ _) hl
          have hitem : value f (display v ++ (displayRest vs ++ ')' :: rest))
              = some (displayRest vs ++ ')' :: rest, v) :=
            ih v hv1 _ (stopsRun_displayRest vs ')' (by decide) rest)
          have hin : displayList (v :: vs) ++ ')' :: rest
              = display v ++ (displayRest vs ++ ')' :: rest) := by
            simp [displayList]
          have hdpos : 1 ≤ (display v).length := List.length_pos.mpr (display_ne_nil v)
          rw [hin]
          simp only [separated_list, hitem]
          rw [if_neg (by simp only [List.length_append]; omega)]
          rw [sepLoop_display f (fun w hw r hr => ih w hw r hr) vs hvs _
            (by
              have h4 := length_le_displayRest vs
              simp only [List.length_append, List.length_cons]
              omega) rest [v]]
          simp
      have hlist : list (value f) ('(' :: (displayList l ++ ')' :: rest))
          = some (rest, Value.List l) := by
        simp only [list, charP_cons_eq, hsep, charP_cons_eq]
      rw [hlist]

mutual
theorem heightV_le_display : ∀ v : Value, heightV v ≤ (display v).length
  | .Sym s => by
    have h := List.length_pos.mpr (display_ne_nil (.Sym s))
    simpa [heightV] using h
  | .List l => by
    have hb := heightL_le_displayList l
    simp only [heightV, display]
    simp only [List.length_cons, List.length_append, List.length_singleton]
    omega

theorem heightL_le_displayList : ∀ vs : List Value, heightL vs ≤ (displayList vs).length + 1
  | [] => by simp [heightL]
  | v :: vs => by
    have h1 := heightV_le_display v
    have h2 := heightL_le_displayList vs
    have h3 : (displayList vs).length ≤ (displayRest vs).length := by
      cases vs with
      | nil => simp [displayList, displayRest]
      | cons w ws1 => simp [displayList, displayRest]
    show max (heightV v) (heightL vs) ≤ (displayList (v :: vs)).length + 1
    apply max_le
    · refine le_trans h1 ?_
      simp only [displayList, List.length_append]
      omega
    · refine le_trans h2 ?_
      simp only [displayList, List.length_append]
      omega
end

/-- Parsing the printed form of a value whose text ends in its own closing
delimiter (a list, or a bar-quoted symbol) succeeds for an arbitrary
remainder: no trailing condition is needed, unlike for bare symbols. -/
theorem value_display_delim (f : Nat) (v : Value) (hv : heightV v ≤ f)
    (hd : (∃ l, v = Value.List l) ∨
      ∃ s, v = Value.Sym s ∧ (s.any needs_quoting || s.isEmpty) = true)
    (rest : List Char) :
    value f (display v ++ rest) = some (rest, v) := by
  obtain ⟨f1, rfl⟩ : ∃ f1, f = f1 + 1 := ⟨f - 1, by have := heightV_pos v; omega⟩
  rcases hd with ⟨l, rfl⟩ | ⟨s, rfl, hq⟩
  · have hl : heightL l ≤ f1 := by
      have : heightL l + 1 ≤ f1 + 1 := by simpa [heightV] using hv
      omega
    have heq : display (.List l) ++ rest = '(' :: (displayList l ++ ')' :: rest) := by
      simp [display]
    rw [heq, value_succ]
    have hsep : separated_list (value f1) (displayList l ++ ')' :: rest)
        = some (')' :: rest, l) := by
      cases l with
      | nil =>
        have hzv : value f1 (')' :: rest) = none :=
          value_none_of_head (by decide) (by decide) (by decide) f1 rest
        simp [separated_list, displayList, hzv]
      | cons w vs =>
        have hw1 : heightV w ≤ f1 :=
          le_trans (heightV_le_of_mem (List.mem_cons_self w vs)) hl
        have hvs : heightL vs ≤ f1 := le_trans (le_max_right _ _) hl
        have hitem : value f1 (display w ++ (displayRest vs ++ ')' :: rest))
            = some (displayRest vs ++ ')' :: rest, w) :=
          value_display f1 w hw1 _ (stopsRun_displayRest vs ')' (by decide) rest)
        have hin : displayList (w :: vs) ++ ')' :: rest
            = display w ++ (displayRest vs ++ ')' :: rest) := by
          simp [displayList]
        have hdpos : 1 ≤ (display w).length := List.length_pos.mpr (display_ne_nil w)
        rw [hin]
        simp only [separated_list, hitem]
        rw [if_neg (by simp only [List.length_append]; omega)]
        rw [sepLoop_display f1 (fun u hu r hr => value_display f1 u hu r hr) vs hvs _
          (by
            have h4 := length_le_displayRest vs
            simp only [List.length_append, List.length_cons]
            omega) rest [w]]
        simp
    have hlist : list (value f1) ('(' :: (displayList l ++ ')' :: rest))
        = some (rest, Value.List l) := by
      simp only [list, charP_cons_eq, hsep, charP_cons_eq]
    rw [hlist]
  · rw [display_sym_quoted hq]
    have heq : ('|' :: displaySymEsc s ++ ['|']) ++ rest
        = '|' :: displaySymEsc s ++ '|' :: rest := by simp
    rw [heq, value_succ]
    have hlist : list (value f1) ('|' :: displaySymEsc s ++ '|' :: rest) = none := by
      simp only [list, List.cons_append,
        charP_cons_ne (show ('|' : Char) ≠ '(' by decide)]
    rw [hlist, escaped_sym_display]

/-- The `separated_list` loop over printed elements followed by a single
separating space and an input on which the element parser fails: the loop
collects the elements, then the failing element after the last separator
makes it stop, rolling back to the input from before that separator. -/
theorem sepLoop_display_fail (f : Nat)
    (IH : ∀ v : Value, heightV v ≤ f → ∀ rest, stopsRun rest = true →
      value f (display v ++ rest) = some (rest, v)) :
    ∀ vs : List Value, heightL vs ≤ f → ∀ lf, vs.length < lf →
      ∀ (b : List Char) (acc : List Value), ws b = b → value f b = none →
        sepLoop (value f) lf (displayRest vs ++ ' ' :: b) acc = some (' ' :: b, acc ++ vs) := by
  intro vs
  induction vs with
  | nil =>
    intro _ lf hlf b acc hwb hfail
    obtain ⟨l1, rfl⟩ : ∃ l1, lf = l1 + 1 := ⟨lf - 1, by omega⟩
    rw [show displayRest [] ++ ' ' :: b = ' ' :: b from rfl, sepLoop_succ]
    have hws : ws (' ' :: b) = b := by
      rw [ws, List.dropWhile_cons, if_pos (by decide)]
      exact hwb
    rw [hws, if_neg (by simp only [List.length_cons]; omega)]
    simp only [hfail, List.append_nil]
  | cons v vs1 ih =>
    intro hh lf hlf b acc hwb hfail
    obtain ⟨l1, rfl⟩ : ∃ l1, lf = l1 + 1 := ⟨lf - 1, by omega⟩
    have hv1 : heightV v ≤ f := le_trans (heightV_le_of_mem (List.mem_cons_self v vs1)) hh
    have hvs1 : heightL vs1 ≤ f := le_trans (le_max_right _ _) hh
    have hin : displayRest (v :: vs1) ++ ' ' :: b
        = ' ' :: (display v ++ (displayRest vs1 ++ ' ' :: b)) := by
      simp [displayRest]
    have hws : ws (' ' :: (display v ++ (displayRest vs1 ++ ' ' :: b)))
        = display v ++ (displayRest vs1 ++ ' ' :: b) := by
      rw [ws, List.dropWhile_cons, if_pos (by decide)]
      exact ws_display_append v _
    have hitem : value f (display v ++ (displayRest vs1 ++ ' ' :: b))
        = some (displayRest vs1 ++ ' ' :: b, v) :=
      IH v hv1 _ (stopsRun_displayRest vs1 ' ' (by decide) b)
    have hdpos : 1 ≤ (display v).length := List.length_pos.mpr (display_ne_nil v)
    rw [hin, sepLoop_succ, hws]
    rw [if_neg (by simp only [List.length_cons]; omega)]
    simp only [hitem]
    rw [if_neg (by simp only [List.length_append]; omega)]
    rw [ih hvs1 l1 (by simpa using Nat.lt_of_succ_lt_succ hlf) b (acc ++ [v]) hwb hfail]
    simp

/-- The `separated_list` loop over printed elements whose last element's
printed form is followed directly by a remainder `T` at which the
separator consumes nothing: the loop collects all the elements and stops
exactly at `T`, whatever `T` is, given the last element's parse. -/
theorem sepLoop_display_last (f : Nat)
    (IH : ∀ v : Value, heightV v ≤ f → ∀ rest, stopsRun rest = true →
      value f (display v ++ rest) = some (rest, v)) :
    ∀ (vs : List Value) (vlast : Value), heightL (vs ++ [vlast]) ≤ f →
      ∀ T : List Char, ws T = T →
        value f (display vlast ++ T) = some (T, vlast) →
        ∀ lf, vs.length + 1 < lf → ∀ acc,
          sepLoop (value f) lf (displayRest (vs ++ [vlast]) ++ T) acc
            = some (T, acc ++ (vs ++ [vlast])) := by
  intro vs
  induction vs with
  | nil =>
    intro vlast _ T hT hlast lf hlf acc
    obtain ⟨l1, rfl⟩ : ∃ l1, lf = l1 + 1 := ⟨lf - 1, by omega⟩
    obtain ⟨l2, rfl⟩ : ∃ l2, l1 = l2 + 1 := ⟨l1 - 1, by omega⟩
    have hin : displayRest ([] ++ [vlast]) ++ T = ' ' :: (display vlast ++ T) := by
      simp [displayRest]
    have hws : ws (' ' :: (display vlast ++ T)) = display vlast ++ T := by
      rw [ws, List.dropWhile_cons, if_pos (by decide)]
      exact ws_display_append vlast _
    have hdpos : 1 ≤ (display vlast).length := List.length_pos.mpr (display_ne_nil vlast)
    rw [hin, sepLoop_succ, hws]
    rw [if_neg (by simp only [List.length_cons]; omega)]
    simp only [hlast]
    rw [if_neg (by simp only [List.length_append]; omega)]
    rw [sepLoop_succ, hT, if_pos rfl]
    simp
  | cons v vs1 ih =>
    intro vlast hh T hT hlast lf hlf acc
    obtain ⟨l1, rfl⟩ : ∃ l1, lf = l1 + 1 := ⟨lf - 1, by omega⟩
    have hhm : heightL ((v :: vs1) ++ [vlast])
        = max (heightV v) (heightL (vs1 ++ [vlast])) := rfl
    rw [hhm] at hh
    have hh1 : heightL (vs1 ++ [vlast]) ≤ f := le_trans (le_max_right _ _) hh
    have hv1 : heightV v ≤ f := le_trans (le_max_left _ _) hh
    have hin : displayRest ((v :: vs1) ++ [vlast]) ++ T
        = ' ' :: (display v ++ (displayRest (vs1 ++ [vlast]) ++ T)) := by
      simp [displayRest]
    have hws : ws (' ' :: (display v ++ (displayRest (vs1 ++ [vlast]) ++ T)))
        = display v ++ (displayRest (vs1 ++ [vlast]) ++ T) := by
      rw [ws, List.dropWhile_cons, if_pos (by decide)]
      exact ws_display_append v _
    have hitem : value f (display v ++ (displayRest (vs1 ++ [vlast]) ++ T))
        = some (displayRest (vs1 ++ [vlast]) ++ T, v) :=
      IH v hv1 _ (stopsRun_displayRest_ne_nil (vs1 ++ [vlast]) (by simp) T)
    have hdpos : 1 ≤ (display v).length := List.length_pos.mpr (display_ne_nil v)
    rw [hin, sepLoop_succ, hws]
    rw [if_neg (by simp only [List.length_cons]; omega)]
    simp only [hitem]
    rw [if_neg (by simp only [List.length_append]; omega)]
    rw [ih vlast hh1 T hT hlast l1 (by simpa using Nat.lt_of_succ_lt_succ hlf) (acc ++ [v])]
    simp

/-- `separated_list` over the printed elements `pre ++ [v]` with the last
element's printed form followed directly by a remainder `T` at which the
separator consumes nothing: all the elements are collected and the
residual input is exactly `T`. -/
theorem separated_list_display_last (f : Nat)
    (IH : ∀ v : Value, heightV v ≤ f → ∀ rest, stopsRun rest = true →
      value f (display v ++ rest) = some (rest, v))
    (pre : List Value) (v : Value) (T : List Char)
    (hh : heightL (pre ++ [v]) ≤ f) (hT : ws T = T)
    (hlast : value f (display v ++ T) = some (T, v)) :
    separated_list (value f) (displayList (pre ++ [v]) ++ T) = some (T, pre ++ [v]) := by
  have hdpos : 1 ≤ (display v).length := List.length_pos.mpr (display_ne_nil v)
  cases pre with
  | nil =>
    have hin : displayList ([] ++ [v]) ++ T = display v ++ T := by
      simp [displayList, displayRest]
    rw [hin]
    simp only [separated_list, hlast]
    rw [if_neg (by simp only [List.length_append]; omega)]
    rw [sepLoop_succ, hT, if_pos rfl]
    simp
  | cons p pre1 =>
    have hp : heightV p ≤ f := le_trans (heightV_le_of_mem (by simp)) hh
    have hhm : heightL ((p :: pre1) ++ [v])
        = max (heightV p) (heightL (pre1 ++ [v])) := rfl
    rw [hhm] at hh
    have hh1 : heightL (pre1 ++ [v]) ≤ f := le_trans (le_max_right _ _) hh
    have hin : displayList ((p :: pre1) ++ [v]) ++ T
        = display p ++ (displayRest (pre1 ++ [v]) ++ T) := by
      simp [displayList]
    have hitem : value f (display p ++ (displayRest (pre1 ++ [v]) ++ T))
        = some (displayRest (pre1 ++ [v]) ++ T, p) :=
      IH p hp _ (stopsRun_displayRest_ne_nil (pre1 ++ [v]) (by simp) T)
    have hdp : 1 ≤ (display p).length := List.length_pos.mpr (display_ne_nil p)
    rw [hin]
    simp only [separated_list, hitem]
    rw [if_neg (by simp only [List.length_append]; omega)]
    rw [sepLoop_display_last f IH pre1 v hh1 T hT hlast _
      (by
        have h4 := length_le_displayRest (pre1 ++ [v])
        simp only [List.length_append, List.length_cons] at h4 ⊢
        omega) [p]]
    simp

/-- `separated_list` over printed elements followed by a separating space
and an input on which the element parser fails: the elements are collected
and the residual input is the space and that input, rolled back. -/
theorem separated_list_display_fail (f : Nat)
    (IH : ∀ v : Value, heightV v ≤ f → ∀ rest, stopsRun rest = true →
      value f (display v ++ rest) = some (rest, v))
    (p : Value) (pre1 : List Value) (b : List Char)
    (hh : heightL (p :: pre1) ≤ f) (hwb : ws b = b) (hfail : value f b = none) :
    separated_list (value f) (displayList (p :: pre1) ++ ' ' :: b)
      = some (' ' :: b, p :: pre1) := by
  have hp : heightV p ≤ f := le_trans (heightV_le_of_mem (List.mem_cons_self p pre1)) hh
  have hh1 : heightL pre1 ≤ f := le_trans (le_max_right _ _) hh
  have hin : displayList (p :: pre1) ++ ' ' :: b
      = display p ++ (displayRest pre1 ++ ' ' :: b) := by
    simp [displayList]
  have hitem : value f (display p ++ (displayRest pre1 ++ ' ' :: b))
      = some (displayRest pre1 ++ ' ' :: b, p) :=
    IH p hp _ (stopsRun_displayRest pre1 ' ' (by decide) b)
  have hdp : 1 ≤ (display p).length := List.length_pos.mpr (display_ne_nil p)
  rw [hin]
  simp only [separated_list, hitem]
  rw [if_neg (by simp only [List.length_append]; omega)]
  rw [sepLoop_display_fail f IH pre1 hh1 _
    (by
      have h4 := length_le_displayRest pre1
      simp only [List.length_append, List.length_cons]
      omega) b [p] hwb hfail]
  simp

/-- When the list body parse leaves a residual input that does not start
with the closing parenthesis, the whole `value` alternation fails on the
open-parenthesis input: `list` fails at its closing `char!`, and the two
symbol alternatives fail at the open parenthesis itself. -/
theorem value_open_stuck (f : Nat) (body T : List Char) (items : List Value)
    (hsep : separated_list (value f) body = some (T, items))
    (hcp : charP ')' T = none) :
    value (f + 1) ('(' :: body) = none := by
  rw [value_succ]
  have hlist : list (value f) ('(' :: body) = none := by
    simp only [list, charP_cons_eq, hsep, hcp]
  rw [hlist]
  have hesc : escaped_sym ('(' :: body) = none := by
    simp only [escaped_sym, charP_cons_ne (show ('(' : Char) ≠ '|' by decide)]
  rw [hesc]
  simp [unescaped_sym, take_while1, List.takeWhile_cons,
    show doesnt_need_quoting '(' = false by decide]

theorem abutting_head {s : List Char} (h : AbuttingListText s) :
    ∃ b, s = '(' :: b := by
  cases h with
  | visible pre v c t h1 h2 h3 => exact ⟨_, rfl⟩
  | delimited pre v c t h1 h2 => exact ⟨_, rfl⟩
  | nestFirst b hb => exact ⟨b, rfl⟩
  | nestLater pre b hp hb => exact ⟨_, rfl⟩

/-- The `value` parser fails on every abutting list text, given fuel at
least the input length (the fuel the top-level parser supplies). -/
theorem value_abutting_none {s : List Char} (h : AbuttingListText s) :
    ∀ f : Nat, s.length ≤ f → value f s = none := by
  induction h with
  | visible pre v c t hq hw hc =>
    intro f hf
    simp only [List.length_cons, List.length_append] at hf
    obtain ⟨f1, rfl⟩ : ∃ f1, f = f1 + 1 := ⟨f - 1, by omega⟩
    have hh : heightL (pre ++ [v]) ≤ f1 := by
      have h1 := heightL_le_displayList (pre ++ [v])
      omega
    have hT : ws (c :: t) = c :: t := by
      rw [ws, List.dropWhile_cons, if_neg (by simp [hw])]
    have hlast : value f1 (display v ++ c :: t) = some (c :: t, v) :=
      value_display f1 v (le_trans (heightV_le_of_mem (by simp)) hh) (c :: t) hq
    exact value_open_stuck f1 _ _ _
      (separated_list_display_last f1 (fun u hu r hr => value_display f1 u hu r hr)
        pre v (c :: t) hh hT hlast)
      (charP_cons_ne hc t)
  | delimited pre v c t hd hcn =>
    intro f hf
    simp only [List.length_cons, List.length_append] at hf
    obtain ⟨f1, rfl⟩ : ∃ f1, f = f1 + 1 := ⟨f - 1, by omega⟩
    have hh : heightL (pre ++ [v]) ≤ f1 := by
      have h1 := heightL_le_displayList (pre ++ [v])
      omega
    have hw : is_whitespace c = false := not_ws_of_not_quoting hcn
    have hc : c ≠ ')' := ne_of_not_quoting hcn (by decide)
    have hT : ws (c :: t) = c :: t := by
      rw [ws, List.dropWhile_cons, if_neg (by simp [hw])]
    have hlast : value f1 (display v ++ c :: t) = some (c :: t, v) :=
      value_display_delim f1 v (le_trans (heightV_le_of_mem (by simp)) hh) hd (c :: t)
    exact value_open_stuck f1 _ _ _
      (separated_list_display_last f1 (fun u hu r hr => value_display f1 u hu r hr)
        pre v (c :: t) hh hT hlast)
      (charP_cons_ne hc t)
  | nestFirst b hb ih =>
    intro f hf
    simp only [List.length_cons] at hf
    obtain ⟨f1, rfl⟩ : ∃ f1, f = f1 + 1 := ⟨f - 1, by omega⟩
    have hfail : value f1 b = none := ih f1 (by omega)
    have hsep : separated_list (value f1) b = some (b, []) := by
      simp [separated_list, hfail]
    obtain ⟨b1, rfl⟩ := abutting_head hb
    exact value_open_stuck f1 _ _ _ hsep
      (charP_cons_ne (show ('(' : Char) ≠ ')' by decide) b1)
  | nestLater pre b hpre hb ih =>
    intro f hf
    simp only [List.length_cons, List.length_append] at hf
    obtain ⟨f1, rfl⟩ : ∃ f1, f = f1 + 1 := ⟨f - 1, by omega⟩
    obtain ⟨p, pre1, rfl⟩ : ∃ p pre1, pre = p :: pre1 := by
      match pre, hpre with
      | p :: pre1, _ => exact ⟨p, pre1, rfl⟩
    have hfail : value f1 b = none := ih f1 (by omega)
    have hh : heightL (p :: pre1) ≤ f1 := by
      have h1 := heightL_le_displayList (p :: pre1)
      omega
    obtain ⟨b1, rfl⟩ := abutting_head hb
    have hwb : ws ('(' :: b1) = '(' :: b1 := by
      rw [ws, List.dropWhile_cons, if_neg (by decide)]
    exact value_open_stuck f1 _ _ _
      (separated_list_display_fail f1 (fun u hu r hr => value_display f1 u hu r hr)
        p pre1 ('(' :: b1) hh hwb hfail)
      (charP_cons_ne (show (' ' : Char) ≠ ')' by decide) ('(' :: b1))

theorem parser_rest_nil {s rest : List Char} {v : Value}
    (h : parser s = some (rest, v)) : rest = [] := by
  simp only [parser] at h
  cases hv : value (s.length + 1) (ws s) with
  | none =>
    rw [hv] at h
    exact Option.noConfusion h
  | some r =>
    obtain ⟨i2, w⟩ := r
    simp only [hv] at h
    by_cases he : ws i2 = []
    · rw [if_pos he] at h
      cases h
      exact he
    · rw [if_neg he] at h
      exact Option.noConfusion h

/-- C1: Round-trip law: for every Value v — any finite tree of List and Sym
nodes, including deeply nested lists, empty lists, the empty symbol, and
symbols containing quoting-significant characters in any combination and
position — rendering v to text with the printer and then parsing that text
succeeds and yields a Value structurally equal to v. -/
theorem C1_round_trip (v : Value) : from_str (display v) = Except.ok v := by
  have hz : value ((display v).length + 1) (display v ++ []) = some ([], v) :=
    value_display ((display v).length + 1) v
      (le_trans (heightV_le_display v) (Nat.le_succ _)) [] rfl
  rw [List.append_nil] at hz
  have hws : ws (display v) = display v := by
    have h := ws_display_append v []
    simpa using h
  simp only [from_str, parser, hws, hz]
  simp [ws]

/-- C2: the claim says a structurally valid value followed by non-whitespace
content fails with the trailing-input outcome `ParseTrailing`, distinct from
the generic `ParseFailed`.  The code disagrees: the nom pipeline ends in
`eof!()`, so trailing input makes the parse itself fail and `from_str`
returns `ParseFailed`; the `ParseTrailing` branch of `from_str` is
unreachable.  This theorem evaluates the code at the spec's own example pair
and proves no input at all can produce `ParseTrailing`. -/
theorem C2_trailing_is_parse_failed :
    from_str "(a b) extra".data = .error .ParseFailed ∧
    from_str "(a b".data = .error .ParseFailed ∧
    ∀ s : List Char, from_str s ≠ .error .ParseTrailing := by
  refine ⟨rfl, rfl, ?_⟩
  intro s h
  rw [from_str] at h
  cases hp : parser s with
  | none =>
    rw [hp] at h
    exact Except.noConfusion h fun hh => Error.noConfusion hh
  | some r =>
    obtain ⟨rest, v⟩ := r
    have hnil := parser_rest_nil hp
    simp only [hp] at h
    rw [if_pos hnil] at h
    exact Except.noConfusion h

/-- C3: the claim says the deserialize direction never panics and surfaces
every failure as a typed error, in particular when a payload-carrying union
case is requested from a bare Symbol.  The code disagrees:
`EnumAccess::variant_seed` on a `Sym` yields a `VariantAccess` whose payload
state is `None`, and `VariantAccess::newtype_variant_seed` then calls
`Option::unwrap` on that `None`, which aborts (panics) instead of returning
a typed error.  This theorem evaluates that path. -/
theorem C3_newtype_from_symbol_panics {α : Type} (name : List Char)
    (seed : Value → Except Error α) :
    deserialize_enum_newtype name seed (.Sym name) = .panicked := by
  simp [deserialize_enum_newtype, variant_seed, deserialize_identifier,
    newtype_variant_seed]

/-- C4: mandatory whitespace between list elements: every list text in
which two consecutive element values abut with zero intervening whitespace
is rejected by the parser — at any element position, at any nesting depth,
with the first value of the abutting pair of any kind (bare symbol, quoted
symbol or sub-list), whenever the boundary is visible: the second value
starts with an open parenthesis, a vertical bar or a backslash after any
first value, or with any character at all after a first value whose text
ends in its own closing delimiter. -/
theorem C4_abutting_values_rejected (s : List Char) (h : AbuttingListText s) :
    from_str s = .error .ParseFailed := by
  obtain ⟨b, rfl⟩ := abutting_head h
  have hws0 : ws ('(' :: b) = '(' :: b := by
    rw [ws, List.dropWhile_cons, if_neg (by decide)]
  have hval : value (('(' :: b).length + 1) ('(' :: b) = none :=
    value_abutting_none h _ (Nat.le_succ _)
  rw [from_str, parser]
  simp only [hws0, hval]

theorem C4_abutting_values_rejected_witness :
    from_str "(a b|x|)".data = .error .ParseFailed ∧
    from_str "(||a)".data = .error .ParseFailed ∧
    from_str "(()a)".data = .error .ParseFailed ∧
    from_str "((a|x|) b)".data = .error .ParseFailed :=
  ⟨C4_abutting_values_rejected _
      (.visible [.Sym ['a']] (.Sym ['b']) '|' "x|)".data (by decide) (by decide)
        (by decide)),
   C4_abutting_values_rejected _
      (.delimited [] (.Sym []) 'a' ")".data (Or.inr ⟨[], rfl, by decide⟩) (by decide)),
   C4_abutting_values_rejected _
      (.delimited [] (.List []) 'a' ")".data (Or.inl ⟨[], rfl⟩) (by decide)),
   C4_abutting_values_rejected _
      (.nestFirst _ (.visible [] (.Sym ['a']) '|' "x|) b)".data (by decide) (by decide)
        (by decide)))⟩

/-- C5: a character is quoting-significant iff it is whitespace or one of
open-paren, close-paren, vertical-bar, backslash; printing Sym s emits s
verbatim iff s is nonempty and has no quoting-significant character, and
otherwise emits the bar-delimited form with a backslash before exactly the
quoting-significant characters; the empty symbol always prints as two bars.
The printer of src/value.rs agrees with the spec's printing rule. -/
theorem C5_symbol_printing_rule :
    (∀ c, needs_quoting c = quoting_significant_spec c) ∧
    (∀ s, display (.Sym s) = print_sym_spec s) ∧
    display (.Sym []) = ['|', '|'] := by
  have hpred : ∀ c, quoting_significant_spec c = needs_quoting c := by
    intro c
    simp [needs_quoting, quoting_significant_spec, Bool.or_assoc]
  refine ⟨fun c => (hpred c).symm, ?_, rfl⟩
  intro s
  cases hq : (s.any needs_quoting || s.isEmpty) with
  | true =>
    have hcond : ¬(s ≠ [] ∧ (s.all fun c => !quoting_significant_spec c) = true) := by
      rintro ⟨hne, hall⟩
      replace hall := List.all_eq_true.mp hall
      simp only [Bool.or_eq_true] at hq
      rcases hq with hq | hq
      · obtain ⟨x, hx, hxq⟩ := List.any_eq_true.mp hq
        have h2 := hall x hx
        rw [hpred x, hxq] at h2
        simp at h2
      · cases s with
        | nil => exact hne rfl
        | cons a l => simp [List.isEmpty] at hq
    rw [display_sym_quoted hq, print_sym_spec, if_neg hcond]
    simp [displaySymEsc, hpred]
  | false =>
    simp only [Bool.or_eq_false_iff] at hq
    obtain ⟨hany, hemp⟩ := hq
    have hcond : s ≠ [] ∧ (s.all fun c => !quoting_significant_spec c) = true := by
      constructor
      · cases s with
        | nil => simp [List.isEmpty] at hemp
        | cons a l => simp
      · apply List.all_eq_true.mpr
        intro x hx
        rw [hpred x]
        cases hnx : needs_quoting x with
        | false => simp
        | true =>
          rw [List.any_eq_true.mpr ⟨x, hx, hnx⟩] at hany
          cases hany
    rw [display_sym_raw (by simp [hany, hemp]), print_sym_spec, if_pos hcond]

/-- C6: permissive escape on read: inside an escaped symbol, a backslash
followed by any single character c parses as the literal character c,
whether or not c is quoting-significant: for every character c, parsing the
four-character text bar backslash c bar succeeds and yields Sym [c]. -/
theorem C6_escape_any_char (c : Char) :
    from_str ['|', '\\', c, '|'] = .ok (.Sym [c]) := rfl

/-- C7: serializing a byte sequence through `serialize_bytes` attempts a
UTF-8 decode; valid UTF-8 yields Ok with a Symbol holding the decoded text,
and invalid UTF-8 is a hard Utf8 error producing no Value.  Pure ASCII
byte sequences always decode to the corresponding characters. -/
theorem C7_serialize_bytes_utf8 :
    (∀ bs s, utf8_decode bs = some s → serialize_bytes bs = .ok (.Sym s)) ∧
    (∀ bs, utf8_decode bs = none → serialize_bytes bs = .error .Utf8) ∧
    (∀ bs : List Nat, (∀ b ∈ bs, b < 128) →
      serialize_bytes bs = .ok (.Sym (bs.map Char.ofNat))) := by
  refine ⟨fun bs s h => by simp [serialize_bytes, h],
          fun bs h => by simp [serialize_bytes, h], ?_⟩
  intro bs hascii
  have hstep : ∀ (f : Nat) (b : Nat) (t : List Nat), b < 0x80 →
      utf8_decode_go (f + 1) (b :: t)
        = (utf8_decode_go f t).map fun s => Char.ofNat b :: s := by
    intro f b t hb
    simp only [utf8_decode_go, if_pos hb]
  have hdec : ∀ bs : List Nat, (∀ b ∈ bs, b < 128) →
      utf8_decode bs = some (bs.map Char.ofNat) := by
    intro bs
    induction bs with
    | nil => intro _; rfl
    | cons b t ih =>
      intro h
      have hb : b < 128 := h b (List.mem_cons_self b t)
      have ht := ih (fun x hx => h x (List.mem_cons_of_mem b hx))
      show utf8_decode_go (b :: t).length (b :: t) = _
      rw [List.length_cons, hstep t.length b t hb]
      show (utf8_decode t).map _ = _
      rw [ht]
      rfl
  simp [serialize_bytes, hdec bs hascii]

theorem C7_serialize_bytes_utf8_witness :
    (utf8_decode [104, 105] = some ['h', 'i'] ∧
      serialize_bytes [104, 105] = .ok (.Sym ['h', 'i'])) ∧
    (utf8_decode [255] = none ∧ serialize_bytes [255] = .error .Utf8) ∧
    ((104 : Nat) < 128 ∧ serialize_bytes [104] = .ok (.Sym ['h'])) :=
  ⟨⟨rfl, C7_serialize_bytes_utf8.1 [104, 105] ['h', 'i'] rfl⟩,
   ⟨rfl, C7_serialize_bytes_utf8.2.1 [255] rfl⟩,
   ⟨by decide, C7_serialize_bytes_utf8.2.2 [104] (by decide)⟩⟩

/-- C8: ambiguity boundary at the empty list: the text () parses to
List [], and deserializing List [] succeeds against each of the three
shapes it ambiguously encodes: any optional target takes the visit_none
path (the absent value), any unit target takes the visit_unit path, and a
sequence target yields the empty sequence. -/
theorem C8_empty_list_ambiguity :
    from_str "()".data = .ok (.List []) ∧
    (∀ (α : Type) (n : Except Error α) (s : Value → Except Error α),
      deserialize_option (.List []) n s = n) ∧
    (∀ (α : Type) (u : Except Error α), deserialize_unit (.List []) u = u) ∧
    (∀ (α : Type) (seed : Value → Except Error α),
      deserialize_seq seed (.List []) = .ok []) :=
  ⟨rfl, fun _ _ _ => rfl, fun _ _ => rfl, fun _ _ => rfl⟩

theorem drainMap_step (f1 : Nat) (st : List Value) :
    drainMap (f1 + 1) st = match map_next_key Except.ok st with
      | .error e => .error e
      | .ok none => .ok []
      | .ok (some (k, v, st1)) =>
        match drainMap f1 st1 with
        | .error e => .error e
        | .ok ps => .ok ((k, v) :: ps) := rfl

theorem drainMap_bad (child : Value)
    (hbad : (∃ s, child = Value.Sym s) ∨ ∃ vs, child = Value.List vs ∧ vs.length ≠ 2) :
    ∀ pre : List Value, (∀ x ∈ pre, ∃ a b, x = Value.List [a, b]) →
    ∀ (Y : List Value) (fuel : Nat), pre.length < fuel →
    drainMap fuel ((Y ++ [child]) ++ pre.reverse) = .error (.Invalid "pair" child) := by
  intro pre
  induction pre with
  | nil =>
    intro _ Y fuel hfuel
    have hlast : ((Y ++ [child]) ++ ([] : List Value).reverse).getLast? = some child := by
      rw [List.reverse_nil, List.append_nil]
      exact List.getLast?_concat Y
    obtain ⟨f1, rfl⟩ : ∃ f1, fuel = f1 + 1 := ⟨fuel - 1, by omega⟩
    rw [drainMap_step]
    rcases hbad with ⟨s0, rfl⟩ | ⟨vs, rfl, hlen2⟩
    · simp only [map_next_key, hlast]
    · match vs, hlen2 with
      | [], _ => simp only [map_next_key, hlast]
      | [a], _ => simp only [map_next_key, hlast]
      | a :: b :: d :: r, _ => simp only [map_next_key, hlast]
      | [a, b], h => exact absurd rfl h
  | cons p pre1 ih =>
    intro hpre Y fuel hlf
    obtain ⟨a, b, rfl⟩ := hpre p (List.mem_cons_self p pre1)
    obtain ⟨f1, rfl⟩ : ∃ f1, fuel = f1 + 1 := ⟨fuel - 1, by omega⟩
    have hst : (Y ++ [child]) ++ (Value.List [a, b] :: pre1).reverse
        = ((Y ++ [child]) ++ pre1.reverse) ++ [Value.List [a, b]] := by
      rw [List.reverse_cons, ← List.append_assoc]
    have hlast : (((Y ++ [child]) ++ pre1.reverse) ++ [Value.List [a, b]]).getLast?
        = some (Value.List [a, b]) := List.getLast?_concat _
    have hdrop : (((Y ++ [child]) ++ pre1.reverse) ++ [Value.List [a, b]]).dropLast
        = (Y ++ [child]) ++ pre1.reverse := List.dropLast_concat
    have hkey : map_next_key Except.ok
        (((Y ++ [child]) ++ pre1.reverse) ++ [Value.List [a, b]])
        = .ok (some (a, b, (Y ++ [child]) ++ pre1.reverse)) := by
      simp only [map_next_key, hlast, hdrop]
    have hih := ih (fun x hx => hpre x (List.mem_cons_of_mem _ hx)) Y f1
      (by simp only [List.length_cons] at hlf; omega)
    rw [hst, drainMap_step]
    simp only [hkey, hih]

/-- C9: keyed-mapping child validation: requesting a keyed mapping from a
List requires every child to be a 2-element [key, value] list; the first
child that is a Symbol, or a List of length other than 2, makes
deserialization fail with Invalid carrying the expected shape name "pair"
and that offending child Value. -/
theorem C9_bad_pair_child (pre post : List Value) (child : Value)
    (hpre : ∀ x ∈ pre, ∃ a b, x = Value.List [a, b])
    (hbad : (∃ s, child = Value.Sym s) ∨ ∃ vs, child = Value.List vs ∧ vs.length ≠ 2) :
    deserialize_map (.List (pre ++ child :: post)) = .error (.Invalid "pair" child) := by
  have hrev : (pre ++ child :: post).reverse = (post.reverse ++ [child]) ++ pre.reverse := by
    simp
  simp only [deserialize_map, hrev]
  exact drainMap_bad child hbad pre hpre post.reverse _
    (by simp only [List.length_append, List.length_cons]; omega)

theorem C9_bad_pair_child_witness :
    deserialize_map (.List [.List [.Sym ['a'], .Sym ['1']], .Sym ['o']]) =
      .error (.Invalid "pair" (.Sym ['o'])) :=
  C9_bad_pair_child [.List [.Sym ['a'], .Sym ['1']]] [] (.Sym ['o'])
    (by
      intro x hx
      rw [List.mem_singleton] at hx
      exact ⟨.Sym ['a'], .Sym ['1'], hx⟩)
    (Or.inl ⟨['o'], rfl⟩)

/-- C10: when a tagged-union newtype case is deserialized from a List whose
head names the case but which carries two or more payload elements, no
arity error is reported (the length assertion is only a debug assertion,
a no-op in release builds): the payload is taken from the last element of
the list (`Vec::pop`) and the elements between the case name and that last
element are silently ignored. -/
theorem C10_newtype_takes_last_payload {α : Type} (name : List Char)
    (seed : Value → Except Error α) (ps : List Value) (p : Value) :
    deserialize_enum_newtype name seed (.List (.Sym name :: (ps ++ [p])))
      = (match seed p with
         | .ok a => DeResult.ok a
         | .error e => DeResult.err e) := by
  have hlast : (ps ++ [p]).getLast? = some p := by simp
  simp [deserialize_enum_newtype, variant_seed, deserialize_identifier,
    newtype_variant_seed, hlast]

theorem newtype_variant_concrete_example :
    deserialize_enum_newtype "NewtypeVariant".data deserialize_i32
      (.List [.Sym "NewtypeVariant".data, .Sym ['1'], .Sym ['2']]) = .ok 2 := rfl
